import Mathlib

/-!
Verification of the conformance engine of `provide.cicd.conform`
(`src/provide/cicd/conform.py`).

Text is modelled as `List Char` (Unicode code points, matching Python's
`str` iteration).  Line splitting follows Python's `str.splitlines` /
`str.split("\n")` semantics restricted to `'\n'` line terminators, which is
the only terminator the conformance engine itself ever produces.  Python's
whitespace set for `str.strip` is modelled by the six ASCII whitespace
characters.

The standard-library collaborators `ast.parse` / `ast.get_docstring`
(including `inspect.cleandoc`) are modelled executably for the fragment of
Python that the conformance pipeline exercises: leading blank and comment
lines, a module docstring delimited by a triple quote, and opaque
single-line statements.  Inputs outside this fragment (string escapes,
implicit string concatenation after the docstring, indentation errors,
multi-line statements before the second line number is needed) are mapped
to a parse failure, mirroring the `SyntaxError` branch of the source.
-/

set_option maxHeartbeats 4000000
set_option maxRecDepth 10000

namespace Conform

/-- Python whitespace (ASCII fragment), as used by `str.strip` and friends. -/
def pyWs (c : Char) : Bool :=
  c = ' ' || c = '\t' || c = '\n' || c = '\r' || c = '\x0b' || c = '\x0c'

/-- Python `str.lstrip()`. -/
def pyLstrip (s : List Char) : List Char :=
  s.dropWhile pyWs

/-- Python `str.rstrip()`. -/
def pyRstrip : List Char → List Char
  | [] => []
  | c :: cs =>
    match pyRstrip cs with
    | [] => if pyWs c then [] else [c]
    | r => c :: r

/-- Python `str.strip()`. -/
def pyStrip (s : List Char) : List Char :=
  pyLstrip (pyRstrip s)

/-- Python `str.startswith(pat)`: `startsWith pat s` holds when `pat` is an
initial segment of `s`. -/
def startsWith : List Char → List Char → Bool
  | [], _ => true
  | _ :: _, [] => false
  | p :: ps, c :: cs => p == c && startsWith ps cs

/-- Python `pat in s`: substring containment over code points. -/
def containsSub (pat : List Char) : List Char → Bool
  | [] => pat.isEmpty
  | c :: cs => startsWith pat (c :: cs) || containsSub pat cs

/-- Split at the first occurrence of `pat`, returning the part before it and
the part after it (Python `s.partition(pat)` restricted to the found case). -/
def splitAtSub (pat : List Char) : List Char → Option (List Char × List Char)
  | [] => if pat.isEmpty then some ([], []) else none
  | c :: cs =>
    if startsWith pat (c :: cs) then some ([], List.drop pat.length (c :: cs))
    else
      match splitAtSub pat cs with
      | some (a, b) => some (c :: a, b)
      | none => none

/-- Number of (possibly overlapping) occurrences of `pat` in `s`. -/
def countOccur (pat : List Char) : List Char → Nat
  | [] => if pat.isEmpty then 1 else 0
  | c :: cs => (if startsWith pat (c :: cs) then 1 else 0) + countOccur pat cs

/-- Prepend a character to the first segment of a segment list. -/
def consHead (c : Char) : List (List Char) → List (List Char)
  | [] => [[c]]
  | l :: ls => (c :: l) :: ls

/-- Python `s.split("\n")`: every `'\n'` separates segments and a trailing
`'\n'` produces a final empty segment; the result is never empty. -/
def splitFull : List Char → List (List Char)
  | [] => [[]]
  | c :: cs => if c = '\n' then [] :: splitFull cs else consHead c (splitFull cs)

/-- Python `s.splitlines()` for `'\n'`-terminated text: like `splitFull` but
without the final empty segment after a trailing newline, and `[]` on `""`. -/
def splitlines : List Char → List (List Char)
  | [] => []
  | c :: cs => if c = '\n' then [] :: splitlines cs else consHead c (splitlines cs)

/-- Python `s.splitlines(keepends=True)` for `'\n'`-terminated text. -/
def splitKeepends : List Char → List (List Char)
  | [] => []
  | c :: cs => if c = '\n' then ['\n'] :: splitKeepends cs else consHead c (splitKeepends cs)

/-- Python `sep.join(parts)`. -/
def joinWith (sep : List Char) : List (List Char) → List Char
  | [] => []
  | [l] => l
  | l :: ls => l ++ sep ++ joinWith sep ls

/-- Python `str.expandtabs()` (tab size 8); the column resets after a line
terminator. -/
def expandtabs : Nat → List Char → List Char
  | _, [] => []
  | col, c :: cs =>
    if c = '\t' then
      List.replicate (8 - col % 8) ' ' ++ expandtabs (col + (8 - col % 8)) cs
    else if c = '\n' ∨ c = '\r' then c :: expandtabs 0 cs
    else c :: expandtabs (col + 1) cs

/-- Minimum of a list of naturals, `none` on the empty list. -/
def minList : List Nat → Option Nat
  | [] => none
  | n :: ns =>
    match minList ns with
    | none => some n
    | some m => some (min n m)

/-- Drop trailing empty segments (the `while lines and not lines[-1]: pop()`
loop of `inspect.cleandoc`). -/
def dropTrailEmpty (ls : List (List Char)) : List (List Char) :=
  (ls.reverse.dropWhile List.isEmpty).reverse

/-- Model of `inspect.cleandoc` (CPython): expand tabs, split on `'\n'`,
strip the first line's leading whitespace, remove the common indentation
margin of the remaining non-blank lines, drop trailing then leading blank
lines, and re-join with `'\n'`.  `ast.get_docstring` applies this to the raw
docstring value before returning it. -/
def cleandoc (doc : List Char) : List Char :=
  let lines0 := splitFull (expandtabs 0 doc)
  let margins := (lines0.drop 1).filterMap fun l =>
    if (pyLstrip l).length = 0 then none else some (l.length - (pyLstrip l).length)
  let lines1 :=
    match lines0 with
    | [] => []
    | l0 :: rest => pyLstrip l0 :: rest
  let lines2 :=
    match minList margins with
    | none => lines1
    | some m =>
      match lines1 with
      | [] => []
      | l0 :: rest => l0 :: rest.map (List.drop m)
  let lines3 := dropTrailEmpty lines2
  let lines4 := lines3.dropWhile List.isEmpty
  joinWith ['\n'] lines4

-- Protocol constants of `conform.py`.

/-- Source constant `HEADER_SHEBANG`. -/
def HEADER_SHEBANG : List Char := "#!/usr/bin/env python3".data

/-- Source constant `HEADER_LIBRARY`. -/
def HEADER_LIBRARY : List Char := "# ".data

/-- First line of the copyright block. -/
def SPDX_LINE1 : List Char :=
  "# SPDX-FileCopyrightText: Copyright (c) 2025 provide.io llc. All rights reserved.".data

/-- Second line of the copyright block. -/
def SPDX_LINE2 : List Char := "# SPDX-License-Identifier: Apache-2.0".data

/-- Third line of the copyright block. -/
def SPDX_LINE3 : List Char := "#".data

/-- Source constant `SPDX_BLOCK` (the fixed 3-line copyright block). -/
def SPDX_BLOCK : List (List Char) := [SPDX_LINE1, SPDX_LINE2, SPDX_LINE3]

/-- Source constant `PLACEHOLDER_DOCSTRING`. -/
def PLACEHOLDER_DOCSTRING : List Char := "\"\"\"TODO: Add module docstring.\"\"\"".data

/-- Source constant `FOOTER_EMOJIS`: the footer-marker glyph catalog. -/
def FOOTER_EMOJIS : List (List Char) :=
  [ "🏗️".data, "🐍".data, "🧱".data, "🐝".data, "📁".data, "🍽️".data,
    "📖".data, "🧪".data, "✅".data, "🧩".data, "🔧".data, "🌊".data,
    "🪢".data, "🔌".data, "📞".data, "📄".data, "⚙️".data, "🥣".data,
    "🔬".data, "🔼".data, "🌶️".data, "📦".data, "🧰".data, "🌍".data,
    "🪄".data, "🔚".data ]

/-- The default footer used when a repository is absent from the registry
(`registry.get(repo_name, "# 🔚")`). -/
def DEFAULT_FOOTER : List Char := "# 🔚".data

/-- A triple double-quote delimiter. -/
def dq3 : List Char := ['\"', '\"', '\"']

/-- A triple single-quote delimiter. -/
def sq3 : List Char := ['\'', '\'', '\'']

-- Model of the `ast.parse` collaborator (fragment).

/-- A line is trivial for statement search when it is blank or a comment. -/
def trivialLine (l : List Char) : Bool :=
  (pyStrip l).isEmpty || startsWith ['#'] (pyStrip l)

/-- Find the first non-trivial (statement-bearing) line, with its index. -/
def findStmt : Nat → List (List Char) → Option (Nat × List Char)
  | _, [] => none
  | i, l :: ls => if trivialLine l then findStmt (i + 1) ls else some (i, l)

/-- Scan for the closing triple-quote delimiter: `rest` is the part of the
opening line after the opening delimiter, `ls` the following lines.  Returns
the raw string contents, the number of extra lines consumed, and the part of
the closing line after the delimiter. -/
def scanClose (delim : List Char) : List Char → List (List Char) → Option (List Char × Nat × List Char)
  | rest, ls =>
    match splitAtSub delim rest with
    | some (a, b) => some (a, 0, b)
    | none =>
      match ls with
      | [] => none
      | l :: ls2 =>
        match scanClose delim l ls2 with
        | some (raw, n, after) => some (rest ++ '\n' :: raw, n + 1, after)
        | none => none

/-- Model of `ast.parse` restricted to what
`find_module_docstring_and_body_start` inspects.  `none` is a parse failure
(`SyntaxError`).  `some none` is a module with an empty body.
`some (some (l1, sv, l2))` gives the 1-based line of the first statement,
`sv = some raw` when that statement is a bare string literal with raw
contents `raw`, and the 1-based line of the second statement when one
exists.  Constructs outside the modelled fragment are mapped to failure. -/
def pyParse (content : List Char) : Option (Option (Nat × Option (List Char) × Option Nat)) :=
  let ls := splitFull content
  match findStmt 0 ls with
  | none => some none
  | some (i, L) =>
    if pyWs (L.headD ' ') then none
    else if startsWith dq3 L || startsWith sq3 L then
      let delim := if startsWith dq3 L then dq3 else sq3
      match scanClose delim (L.drop 3) (ls.drop (i + 1)) with
      | none => none
      | some (raw, n, after) =>
        if trivialLine after then
          if raw.contains '\\' then none
          else
            let j := i + n
            match findStmt (j + 1) (ls.drop (j + 1)) with
            | none => some (some (i + 1, some raw, none))
            | some (i2, L2) =>
              if pyWs (L2.headD ' ') then none
              else some (some (i + 1, some raw, some (i2 + 1)))
        else none
    else some (some (i + 1, none, none))

/-- Python `len(content.splitlines())`. -/
def numLines (content : List Char) : Nat :=
  (splitlines content).length

/-- Translation of `find_module_docstring_and_body_start`: on parse failure
return `(none, 1)`; on an empty body `(none, len + 1)`; when the first
statement is a bare string literal, the cleaned docstring together with the
second statement's line (or `len + 1`); otherwise `(none, first line)`. -/
def findModuleDocstringAndBodyStart (content : List Char) : Option (List Char) × Nat :=
  match pyParse content with
  | none => (none, 1)
  | some mod =>
    match mod with
    | none => (none, numLines content + 1)
    | some (l1, sv, l2) =>
      match sv with
      | none => (none, l1)
      | some raw =>
        (some (cleandoc raw),
          match l2 with
          | some k => k
          | none => numLines content + 1)

-- Translation of the conformance pipeline.

/-- The shebang recognizer prefix. -/
def shebangMark : List Char := ['#', '!']

/-- The SPDX header recognizer prefix. -/
def spdxMark : List Char := "# SPDX-".data

/-- Translation of the loop body of `_clean_header_lines`; the `Bool`
argument is the `skip_next_empty` flag. -/
def cleanHeaderGo : Bool → List (List Char) → List (List Char)
  | _, [] => []
  | skipNextEmpty, line :: rest =>
    if startsWith shebangMark (pyStrip line) then cleanHeaderGo true rest
    else if startsWith spdxMark (pyStrip line) || pyStrip line == ['#'] then
      cleanHeaderGo true rest
    else if pyStrip line == PLACEHOLDER_DOCSTRING then cleanHeaderGo true rest
    else if skipNextEmpty && (pyStrip line).isEmpty then cleanHeaderGo false rest
    else line :: cleanHeaderGo false rest

/-- Translation of `_clean_header_lines`. -/
def cleanHeaderLines (lines : List (List Char)) : List (List Char) :=
  cleanHeaderGo false lines

/-- Translation of `_remove_footer_emojis`. -/
def removeFooterEmojis (bodyContent : List Char) : List Char :=
  let bodyLinesStripped := splitlines bodyContent
  let cleanedBodyLines :=
    bodyLinesStripped.filter fun line => !(FOOTER_EMOJIS.any fun e => containsSub e line)
  pyRstrip (joinWith ['\n'] cleanedBodyLines)

/-- Two consecutive newlines, the blank-line separator of the template. -/
def nl2 : List Char := ['\n', '\n']

/-- Translation of `_construct_file_content`. -/
def constructFileContent (headerFirstLine docstringStr bodyContent footer : List Char) : List Char :=
  let finalHeader := joinWith ['\n'] (headerFirstLine :: SPDX_BLOCK)
  if bodyContent.isEmpty then
    finalHeader ++ nl2 ++ docstringStr ++ nl2 ++ footer ++ ['\n']
  else
    finalHeader ++ nl2 ++ docstringStr ++ nl2 ++ bodyContent ++ nl2 ++ footer ++ ['\n']

/-- The content written for an empty input file (`conform_file`, empty
branch). -/
def emptyFileContent (footer : List Char) : List Char :=
  joinWith ['\n'] (HEADER_LIBRARY :: SPDX_BLOCK) ++ nl2 ++ PLACEHOLDER_DOCSTRING ++ nl2
    ++ footer ++ ['\n']

/-- The `lines` local of `conform_file`. -/
def linesOf (content : List Char) : List (List Char) :=
  splitKeepends content

/-- The `is_executable` local of `conform_file`. -/
def isExecutable (content : List Char) : Bool :=
  startsWith shebangMark (pyStrip ((linesOf content).headD []))

/-- The `header_first_line` local of `conform_file`. -/
def headerFirstOf (content : List Char) : List Char :=
  if isExecutable content then HEADER_SHEBANG else HEADER_LIBRARY

/-- The `cleaned_lines` local of `conform_file`. -/
def cleanedLinesOf (content : List Char) : List (List Char) :=
  cleanHeaderLines (linesOf content)

/-- The `cleaned_content` local of `conform_file` (an empty join). -/
def cleanedContentOf (content : List Char) : List Char :=
  List.flatten (cleanedLinesOf content)

/-- The `(docstring, body_start_lineno)` pair of `conform_file`. -/
def docstringInfoOf (content : List Char) : Option (List Char) × Nat :=
  findModuleDocstringAndBodyStart (cleanedContentOf content)

/-- The `docstring_str` local of `conform_file`. -/
def docstringStrOf (content : List Char) : List Char :=
  match (docstringInfoOf content).1 with
  | none => PLACEHOLDER_DOCSTRING
  | some d => dq3 ++ d ++ dq3

/-- The `body_content` local of `conform_file` before footer stripping. -/
def bodyRawOf (content : List Char) : List Char :=
  pyRstrip (List.flatten (List.drop ((docstringInfoOf content).2 - 1)
    (splitKeepends (cleanedContentOf content))))

/-- The `body_content` local of `conform_file` after footer stripping. -/
def bodyOf (content : List Char) : List Char :=
  removeFooterEmojis (bodyRawOf content)

/-- The `final_content` computed by `conform_file` for non-empty input. -/
def conformContent (content footer : List Char) : List Char :=
  constructFileContent (headerFirstOf content) (docstringStrOf content) (bodyOf content) footer

/-- Outcome of one `conform_file` call: `result` is `.error ()` when an
exception escapes the function, otherwise `.ok modified`; `written` is the
content successfully written, if any; `errReported` records whether an error
message was printed to diagnostics. -/
structure FileOutcome where
  result : Except Unit Bool
  written : Option (List Char)
  errReported : Bool

/-- Translation of `conform_file`.  File I/O is represented by the outcome
of the initial read (`readResult`) and by whether writing succeeds
(`writeOk`).  The read and the final comparison-write are inside
`try/except` in the source; the write of the empty-file branch is not, so
its failure escapes as an exception. -/
def conformFile (readResult : Except Unit (List Char)) (writeOk : Bool)
    (footer : List Char) : FileOutcome :=
  match readResult with
  | .error _ => ⟨.ok false, none, true⟩
  | .ok content =>
    if (splitKeepends content).isEmpty then
      if writeOk then ⟨.ok true, some (emptyFileContent footer), false⟩
      else ⟨.error (), none, false⟩
    else
      let finalContent := conformContent content footer
      if finalContent = content then ⟨.ok false, none, false⟩
      else if writeOk then ⟨.ok true, some finalContent, false⟩
      else ⟨.ok false, none, true⟩

-- Basic lemmas about segment splitting.

theorem consHead_ne_nil (c : Char) (ls : List (List Char)) : consHead c ls ≠ [] := by
  cases ls <;> simp [consHead]

theorem consHead_append (c : Char) (ls ms : List (List Char)) (h : ls ≠ []) :
    consHead c (ls ++ ms) = consHead c ls ++ ms := by
  cases ls with
  | nil => exact absurd rfl h
  | cons l ls => simp [consHead]

theorem splitFull_ne_nil (s : List Char) : splitFull s ≠ [] := by
  cases s with
  | nil => simp [splitFull]
  | cons c cs =>
    simp only [splitFull]
    split
    · simp
    · exact consHead_ne_nil _ _

theorem splitFull_append (a b : List Char) :
    splitFull (a ++ '\n' :: b) = splitFull a ++ splitFull b := by
  induction a with
  | nil => simp [splitFull]
  | cons c cs ih =>
    by_cases hc : c = '\n'
    · simp [splitFull, hc, ih]
    · simp only [List.cons_append, splitFull, if_neg hc, List.append_eq]
      rw [ih]
      exact consHead_append _ _ _ (splitFull_ne_nil cs)

theorem splitlines_append (a b : List Char) :
    splitlines (a ++ '\n' :: b) = splitFull a ++ splitlines b := by
  induction a with
  | nil => simp [splitlines, splitFull]
  | cons c cs ih =>
    by_cases hc : c = '\n'
    · simp [splitlines, splitFull, hc, ih]
    · simp only [List.cons_append, splitlines, splitFull, if_neg hc, List.append_eq]
      rw [ih]
      exact consHead_append _ _ _ (splitFull_ne_nil cs)

theorem splitFull_no_newline {a : List Char} (h : '\n' ∉ a) : splitFull a = [a] := by
  induction a with
  | nil => rfl
  | cons c cs ih =>
    have hc : ¬ c = '\n' := fun hh => h (hh ▸ List.mem_cons_self c cs)
    have hcs : '\n' ∉ cs := fun hh => h (List.mem_cons_of_mem c hh)
    simp [splitFull, if_neg hc, ih hcs, consHead]

theorem splitlines_nil_iff {s : List Char} : splitlines s = [] ↔ s = [] := by
  constructor
  · intro h
    cases s with
    | nil => rfl
    | cons c cs =>
      by_cases hc : c = '\n'
      · simp [splitlines, hc] at h
      · simp only [splitlines, if_neg hc] at h
        exact absurd h (consHead_ne_nil _ _)
  · intro h; simp [h, splitlines]

theorem splitlines_no_newline {a : List Char} (h : '\n' ∉ a) (ha : a ≠ []) :
    splitlines a = [a] := by
  induction a with
  | nil => exact absurd rfl ha
  | cons c cs ih =>
    have hc : ¬ c = '\n' := fun hh => h (hh ▸ List.mem_cons_self c cs)
    have hcs : '\n' ∉ cs := fun hh => h (List.mem_cons_of_mem c hh)
    by_cases hnil : cs = []
    · subst hnil; simp [splitlines, if_neg hc, consHead]
    · simp [splitlines, if_neg hc, ih hcs hnil, consHead]

theorem splitFull_eq_splitlines_or (s : List Char) :
    splitFull s = splitlines s ∨ splitFull s = splitlines s ++ [[]] := by
  induction s with
  | nil => right; rfl
  | cons c cs ih =>
    by_cases hc : c = '\n'
    · rcases ih with h | h
      · left; simp [splitFull, splitlines, hc, h]
      · right; simp [splitFull, splitlines, hc, h]
    · rcases ih with h | h
      · left; simp [splitFull, splitlines, if_neg hc, h]
      · cases hcs : splitlines cs with
        | nil =>
          left
          simp [splitFull, splitlines, if_neg hc, h, hcs, consHead]
        | cons l ls =>
          right
          simp [splitFull, splitlines, if_neg hc, h, hcs, consHead]

theorem mem_splitFull_cases {s l : List Char} (h : l ∈ splitFull s) :
    l ∈ splitlines s ∨ l = [] := by
  rcases splitFull_eq_splitlines_or s with he | he
  · exact Or.inl (he ▸ h)
  · rw [he] at h
    rcases List.mem_append.mp h with h1 | h1
    · exact Or.inl h1
    · simp at h1; exact Or.inr h1

theorem mem_splitlines_no_newline {s l : List Char} (h : l ∈ splitlines s) : '\n' ∉ l := by
  induction s generalizing l with
  | nil => simp [splitlines] at h
  | cons c cs ih =>
    by_cases hc : c = '\n'
    · rw [splitlines, if_pos hc] at h
      rcases List.mem_cons.mp h with h1 | h1
      · subst h1; simp
      · exact ih h1
    · rw [splitlines, if_neg hc] at h
      cases hcs : splitlines cs with
      | nil =>
        rw [hcs] at h
        simp only [consHead, List.mem_singleton] at h
        subst h
        intro hm
        rw [List.mem_singleton] at hm
        exact hc hm.symm
      | cons x xs =>
        rw [hcs] at h
        simp only [consHead] at h
        rcases List.mem_cons.mp h with h1 | h1
        · subst h1
          intro hm
          rcases List.mem_cons.mp hm with h2 | h2
          · exact hc h2.symm
          · exact ih (l := x) (hcs ▸ List.mem_cons_self x xs) h2
        · exact ih (hcs ▸ List.mem_cons_of_mem x h1)

-- Whitespace and strip lemmas.

theorem pyRstrip_cons (c : Char) (cs : List Char) :
    pyRstrip (c :: cs) =
      match pyRstrip cs with
      | [] => if pyWs c then [] else [c]
      | r => c :: r := rfl

theorem pyRstrip_nil_of_ws {w : List Char} (h : ∀ c ∈ w, pyWs c) : pyRstrip w = [] := by
  induction w with
  | nil => rfl
  | cons c cs ih =>
    rw [pyRstrip_cons, ih fun x hx => h x (List.mem_cons_of_mem c hx)]
    simp [h c (List.mem_cons_self c cs)]

theorem pyRstrip_append_ws {x w : List Char} (h : ∀ c ∈ w, pyWs c) :
    pyRstrip (x ++ w) = pyRstrip x := by
  induction x with
  | nil => simpa using pyRstrip_nil_of_ws h
  | cons c cs ih => rw [List.cons_append, pyRstrip_cons, ih, pyRstrip_cons]

theorem pyStrip_append_ws {x w : List Char} (h : ∀ c ∈ w, pyWs c) :
    pyStrip (x ++ w) = pyStrip x := by
  unfold pyStrip
  rw [pyRstrip_append_ws h]

theorem pyRstrip_decomp (s : List Char) :
    ∃ w, s = pyRstrip s ++ w ∧ ∀ c ∈ w, pyWs c := by
  induction s with
  | nil => exact ⟨[], rfl, by simp⟩
  | cons c cs ih =>
    rcases ih with ⟨w, hw, hws⟩
    rw [pyRstrip_cons]
    cases h : pyRstrip cs with
    | nil =>
      have hcw : cs = w := by rw [hw, h, List.nil_append]
      simp only [h]
      by_cases hc : pyWs c
      · refine ⟨c :: cs, by simp [hc], fun x hx => ?_⟩
        rcases List.mem_cons.mp hx with h1 | h1
        · exact h1 ▸ hc
        · exact hws x (hcw ▸ h1)
      · refine ⟨cs, by simp [hc], fun x hx => ?_⟩
        exact hws x (hcw ▸ hx)
    | cons r rs =>
      simp only [h]
      refine ⟨w, ?_, hws⟩
      rw [hw, h]
      simp

-- startsWith and containsSub lemmas.

theorem startsWith_self_append (p x : List Char) : startsWith p (p ++ x) = true := by
  induction p with
  | nil => rfl
  | cons c cs ih => simp [startsWith, ih]

theorem startsWith_append_ext {p s : List Char} (h : startsWith p s = true) (y : List Char) :
    startsWith p (s ++ y) = true := by
  induction p generalizing s with
  | nil => rfl
  | cons c cs ih =>
    cases s with
    | nil => simp [startsWith] at h
    | cons d ds =>
      simp only [startsWith, Bool.and_eq_true] at h
      simp [startsWith, h.1, ih h.2]

theorem containsSub_nil_pat (s : List Char) : containsSub [] s = true := by
  cases s <;> simp [containsSub, startsWith, List.isEmpty]

theorem containsSub_of_startsWith {p s : List Char} (h : startsWith p s = true) :
    containsSub p s = true := by
  cases s with
  | nil =>
    cases p with
    | nil => simp [containsSub, List.isEmpty]
    | cons c cs => simp [startsWith] at h
  | cons c cs => simp [containsSub, h]

theorem containsSub_self_append (p x : List Char) : containsSub p (p ++ x) = true :=
  containsSub_of_startsWith (startsWith_self_append p x)

theorem containsSub_append_left {p x : List Char} (h : containsSub p x = true) (y : List Char) :
    containsSub p (x ++ y) = true := by
  induction x with
  | nil =>
    simp only [containsSub, List.isEmpty_iff] at h
    subst h
    simp [containsSub_nil_pat]
  | cons c cs ih =>
    simp only [containsSub, Bool.or_eq_true] at h
    rcases h with h | h
    · simpa [containsSub] using Or.inl (startsWith_append_ext h y)
    · simpa [containsSub] using Or.inr (ih h)

theorem containsSub_append_right {p x : List Char} (h : containsSub p x = true) (a : List Char) :
    containsSub p (a ++ x) = true := by
  induction a with
  | nil => simpa using h
  | cons b bs ih => simpa [containsSub] using Or.inr ih

-- First-line decomposition and lines of extended text.

theorem splitlines_cons_decomp (s : List Char) (hs : s ≠ []) :
    ('\n' ∉ s ∧ splitlines s = [s]) ∨
      ∃ C rt, s = C ++ '\n' :: rt ∧ '\n' ∉ C ∧ splitlines s = C :: splitlines rt := by
  induction s with
  | nil => exact absurd rfl hs
  | cons c cs ih =>
    by_cases hc : c = '\n'
    · subst hc
      right
      exact ⟨[], cs, rfl, by simp, by simp [splitlines]⟩
    · by_cases hnil : cs = []
      · subst hnil
        left
        refine ⟨?_, by simp [splitlines, if_neg hc, consHead]⟩
        intro hm; rw [List.mem_singleton] at hm; exact hc hm.symm
      · rcases ih hnil with ⟨hnl, hsl⟩ | ⟨C, rt, hdec, hnlC, hsl⟩
        · left
          refine ⟨?_, by simp [splitlines, if_neg hc, hsl, consHead]⟩
          intro hm
          rcases List.mem_cons.mp hm with h1 | h1
          · exact hc h1.symm
          · exact hnl h1
        · right
          refine ⟨c :: C, rt, by simp [hdec], ?_, ?_⟩
          · intro hm
            rcases List.mem_cons.mp hm with h1 | h1
            · exact hc h1.symm
            · exact hnlC h1
          · simp [splitlines, if_neg hc, hsl, consHead]

theorem lines_take_extend_fuel :
    ∀ fuel t r l, t.length ≤ fuel → (∀ c ∈ r, pyWs c) → l ∈ splitlines t →
      ∃ l' u, l' ∈ splitlines (t ++ r) ∧ l' = l ++ u ∧ ∀ c ∈ u, pyWs c := by
  intro fuel
  induction fuel with
  | zero =>
    intro t r l hlen hws hl
    have ht : t = [] := List.length_eq_zero.mp (Nat.le_zero.mp hlen)
    subst ht
    simp [splitlines] at hl
  | succ n ih =>
    intro t r l hlen hws hl
    by_cases ht : t = []
    · subst ht; simp [splitlines] at hl
    rcases splitlines_cons_decomp t ht with ⟨hnl, hsl⟩ | ⟨C, rt, hdec, hnlC, hsl⟩
    · rw [hsl, List.mem_singleton] at hl
      subst hl
      by_cases hr : r = []
      · subst hr
        exact ⟨l, [], by simp [hsl], by simp, by simp⟩
      rcases splitlines_cons_decomp r hr with ⟨hnlr, hslr⟩ | ⟨C', rt', hdecr, hnlC', hslr⟩
      · refine ⟨l ++ r, r, ?_, rfl, hws⟩
        have hno : '\n' ∉ l ++ r := by
          intro hm
          rcases List.mem_append.mp hm with h | h
          · exact hnl h
          · exact hnlr h
        rw [splitlines_no_newline hno (by simp [ht])]
        simp
      · refine ⟨l ++ C', C', ?_, rfl, fun c hc =>
          hws c (by rw [hdecr]; exact List.mem_append.mpr (Or.inl hc))⟩
        rw [hdecr, ← List.append_assoc, splitlines_append]
        have hno : '\n' ∉ l ++ C' := by
          intro hm
          rcases List.mem_append.mp hm with h | h
          · exact hnl h
          · exact hnlC' h
        rw [splitFull_no_newline hno]
        simp
    · rw [hsl] at hl
      rcases List.mem_cons.mp hl with h1 | h1
      · subst h1
        refine ⟨l, [], ?_, by simp, by simp⟩
        rw [hdec, List.append_assoc, List.cons_append, splitlines_append,
          splitFull_no_newline hnlC]
        simp
      · have hlt : t.length = C.length + (rt.length + 1) := by
          rw [hdec]; simp [List.length_append]
        have hlenrt : rt.length ≤ n := by omega
        rcases ih rt r l hlenrt hws h1 with ⟨l', u, hm, he, hu⟩
        refine ⟨l', u, ?_, he, hu⟩
        rw [hdec, List.append_assoc, List.cons_append, splitlines_append]
        exact List.mem_append.mpr (Or.inr hm)

theorem lines_take_extend {t r l : List Char} (hws : ∀ c ∈ r, pyWs c)
    (hl : l ∈ splitlines t) :
    ∃ l' u, l' ∈ splitlines (t ++ r) ∧ l' = l ++ u ∧ ∀ c ∈ u, pyWs c :=
  lines_take_extend_fuel t.length t r l le_rfl hws hl

/-- Every line of the rstripped text extends, up to trailing whitespace, to a
line of the original text. -/
theorem lines_pyRstrip {s l : List Char} (hl : l ∈ splitlines (pyRstrip s)) :
    ∃ l' u, l' ∈ splitlines s ∧ l' = l ++ u ∧ ∀ c ∈ u, pyWs c := by
  rcases pyRstrip_decomp s with ⟨w, hw, hws⟩
  rcases lines_take_extend hws hl with ⟨l', u, hm, he, hu⟩
  exact ⟨l', u, by rw [hw]; exact hm, he, hu⟩

-- splitKeepends lemmas.

theorem flatten_splitKeepends (s : List Char) : (splitKeepends s).flatten = s := by
  induction s with
  | nil => rfl
  | cons c cs ih =>
    by_cases hc : c = '\n'
    · simp [splitKeepends, hc, ih]
    · simp only [splitKeepends, if_neg hc]
      cases h : splitKeepends cs with
      | nil =>
        have hcs : cs = [] := by rw [← ih, h]; rfl
        simp [consHead, hcs]
      | cons l ls =>
        rw [← ih, h]
        simp [consHead]

theorem splitKeepends_splitlines_step (s : List Char) (hs : s ≠ []) :
    ∃ L C r, splitKeepends s = L :: splitKeepends r ∧ splitlines s = C :: splitlines r := by
  induction s with
  | nil => exact absurd rfl hs
  | cons c cs ih =>
    by_cases hc : c = '\n'
    · exact ⟨['\n'], [], cs, by simp [splitKeepends, hc], by simp [splitlines, hc]⟩
    · by_cases hnil : cs = []
      · subst hnil
        exact ⟨[c], [c], [], by simp [splitKeepends, if_neg hc, consHead],
          by simp [splitlines, if_neg hc, consHead]⟩
      · rcases ih hnil with ⟨L, C, r, hK, hL⟩
        exact ⟨c :: L, c :: C, r, by simp [splitKeepends, if_neg hc, hK, consHead],
          by simp [splitlines, if_neg hc, hL, consHead]⟩

theorem splitlines_flatten_drop (k : Nat) :
    ∀ s : List Char,
      splitlines (List.drop k (splitKeepends s)).flatten = List.drop k (splitlines s) := by
  induction k with
  | zero => intro s; simp [flatten_splitKeepends]
  | succ n ih =>
    intro s
    by_cases hs : s = []
    · subst hs; simp [splitKeepends, splitlines]
    · rcases splitKeepends_splitlines_step s hs with ⟨L, C, r, hK, hL⟩
      rw [hK, hL, List.drop_succ_cons, List.drop_succ_cons, ih]

-- Lines of a newline join.

theorem mem_splitlines_joinWith {ls : List (List Char)} (hnl : ∀ x ∈ ls, '\n' ∉ x) :
    ∀ l ∈ splitlines (joinWith ['\n'] ls), l ∈ ls := by
  induction ls with
  | nil => intro l hl; simp [joinWith, splitlines] at hl
  | cons x xs ih =>
    intro l hl
    cases xs with
    | nil =>
      simp only [joinWith] at hl
      by_cases hx : x = []
      · subst hx; simp [splitlines] at hl
      · rw [splitlines_no_newline (hnl x (List.mem_cons_self _ _)) hx,
          List.mem_singleton] at hl
        simp [hl]
    | cons y ys =>
      have hj : joinWith ['\n'] (x :: y :: ys) = x ++ '\n' :: joinWith ['\n'] (y :: ys) := by
        simp [joinWith]
      rw [hj, splitlines_append, splitFull_no_newline (hnl x (List.mem_cons_self _ _))] at hl
      rcases List.mem_append.mp hl with h1 | h1
      · rw [List.mem_singleton] at h1
        simp [h1]
      · exact List.mem_cons_of_mem x (ih (fun z hz => hnl z (List.mem_cons_of_mem x hz)) l h1)

-- Newline-terminated segment joins and the template decomposition.

/-- Join segments, terminating each with a newline. -/
def joinLinesN (segs : List (List Char)) : List Char :=
  segs.foldr (fun seg acc => seg ++ '\n' :: acc) []

theorem splitlines_joinLinesN (segs : List (List Char)) :
    splitlines (joinLinesN segs) = (segs.map splitFull).flatten := by
  induction segs with
  | nil => simp [joinLinesN, splitlines]
  | cons x xs ih =>
    have hx : joinLinesN (x :: xs) = x ++ '\n' :: joinLinesN xs := rfl
    rw [hx, splitlines_append, ih]
    simp

theorem constructFileContent_eq_join (h d b f : List Char) (hb : ¬ b.isEmpty = true) :
    constructFileContent h d b f =
      joinLinesN [h, SPDX_LINE1, SPDX_LINE2, SPDX_LINE3, [], d, [], b, [], f] := by
  simp only [constructFileContent, if_neg hb, joinLinesN, joinWith, nl2, SPDX_BLOCK]
  simp

theorem constructFileContent_eq_join_empty (h d f : List Char) :
    constructFileContent h d [] f =
      joinLinesN [h, SPDX_LINE1, SPDX_LINE2, SPDX_LINE3, [], d, [], f] := by
  simp only [constructFileContent, joinLinesN, joinWith, nl2, SPDX_BLOCK]
  simp

theorem splitFull_spdx1 : splitFull SPDX_LINE1 = [SPDX_LINE1] :=
  splitFull_no_newline (by decide)

theorem splitFull_spdx2 : splitFull SPDX_LINE2 = [SPDX_LINE2] :=
  splitFull_no_newline (by decide)

theorem splitFull_spdx3 : splitFull SPDX_LINE3 = [SPDX_LINE3] :=
  splitFull_no_newline (by decide)

theorem splitFull_nil_seg : splitFull ([] : List Char) = [[]] := rfl

theorem lines_construct {h : List Char} (d b f : List Char) (hb : b ≠ []) (hh : '\n' ∉ h) :
    splitlines (constructFileContent h d b f) =
      [h] ++ SPDX_BLOCK ++ [[]] ++ splitFull d ++ [[]] ++ splitFull b ++ [[]] ++ splitFull f := by
  rw [constructFileContent_eq_join h d b f (by simp [hb]), splitlines_joinLinesN]
  simp only [List.map_cons, List.map_nil, splitFull_no_newline hh, splitFull_spdx1,
    splitFull_spdx2, splitFull_spdx3, splitFull_nil_seg, SPDX_BLOCK]
  simp

theorem lines_construct_empty {h : List Char} (d f : List Char) (hh : '\n' ∉ h) :
    splitlines (constructFileContent h d [] f) =
      [h] ++ SPDX_BLOCK ++ [[]] ++ splitFull d ++ [[]] ++ splitFull f := by
  rw [constructFileContent_eq_join_empty h d f, splitlines_joinLinesN]
  simp only [List.map_cons, List.map_nil, splitFull_no_newline hh, splitFull_spdx1,
    splitFull_spdx2, splitFull_spdx3, splitFull_nil_seg, SPDX_BLOCK]
  simp

-- Lines surviving header cleaning.

/-- A line that survives `_clean_header_lines`: its stripped form is not a
shebang, not an SPDX header line, not the bare comment continuation `#`, and
not the placeholder docstring. -/
def GoodStrip (l : List Char) : Prop :=
  startsWith shebangMark (pyStrip l) = false ∧
  startsWith spdxMark (pyStrip l) = false ∧
  pyStrip l ≠ ['#'] ∧
  pyStrip l ≠ PLACEHOLDER_DOCSTRING

theorem cleanHeaderGo_good :
    ∀ (b : Bool) (ls : List (List Char)), ∀ l ∈ cleanHeaderGo b ls, GoodStrip l := by
  intro b ls
  induction ls generalizing b with
  | nil => intro l hl; simp [cleanHeaderGo] at hl
  | cons x xs ih =>
    intro l hl
    simp only [cleanHeaderGo] at hl
    by_cases h1 : startsWith shebangMark (pyStrip x) = true
    · rw [if_pos h1] at hl; exact ih true l hl
    · rw [if_neg h1] at hl
      by_cases h2 : (startsWith spdxMark (pyStrip x) || pyStrip x == ['#']) = true
      · rw [if_pos h2] at hl; exact ih true l hl
      · rw [if_neg h2] at hl
        by_cases h3 : (pyStrip x == PLACEHOLDER_DOCSTRING) = true
        · rw [if_pos h3] at hl; exact ih true l hl
        · rw [if_neg h3] at hl
          by_cases h4 : (b && (pyStrip x).isEmpty) = true
          · rw [if_pos h4] at hl; exact ih false l hl
          · rw [if_neg h4] at hl
            rcases List.mem_cons.mp hl with h | h
            · rw [h]
              have h1' : startsWith shebangMark (pyStrip x) = false := by simpa using h1
              have h2' : startsWith spdxMark (pyStrip x) = false ∧ pyStrip x ≠ ['#'] := by
                simpa [not_or] using h2
              have h3' : pyStrip x ≠ PLACEHOLDER_DOCSTRING := by simpa using h3
              exact ⟨h1', h2'.1, h2'.2, h3'⟩
            · exact ih false l h

theorem cleanHeaderGo_sublist :
    ∀ (b : Bool) (ls : List (List Char)), (cleanHeaderGo b ls).Sublist ls := by
  intro b ls
  induction ls generalizing b with
  | nil => simp [cleanHeaderGo]
  | cons x xs ih =>
    simp only [cleanHeaderGo]
    split
    · exact (ih true).cons x
    · split
      · exact (ih true).cons x
      · split
        · exact (ih true).cons x
        · split
          · exact (ih false).cons x
          · exact (ih false).cons₂ x

-- Shape of keepends line lists: every segment except the last is
-- newline-terminated, and newlines occur only as terminators.

/-- A newline-terminated segment. -/
def NLterm (l : List Char) : Prop := ∃ b, l = b ++ ['\n'] ∧ '\n' ∉ b

/-- A non-empty newline-free segment. -/
def NLopen (l : List Char) : Prop := l ≠ [] ∧ '\n' ∉ l

/-- All segments newline-terminated, except possibly an open last segment. -/
def ShapeOK : List (List Char) → Prop
  | [] => True
  | [l] => NLterm l ∨ NLopen l
  | l :: rest => NLterm l ∧ ShapeOK rest

theorem shapeOK_tail {x : List Char} {M : List (List Char)} (h : ShapeOK (x :: M)) :
    ShapeOK M := by
  cases M with
  | nil => exact trivial
  | cons y ys => exact h.2

theorem shapeOK_head {x : List Char} {M : List (List Char)} (h : ShapeOK (x :: M)) :
    NLterm x ∨ (M = [] ∧ NLopen x) := by
  cases M with
  | nil =>
    rcases h with h | h
    · exact Or.inl h
    · exact Or.inr ⟨rfl, h⟩
  | cons y ys => exact Or.inl h.1

theorem shapeOK_cons_of {x : List Char} {M : List (List Char)} (hM : ShapeOK M)
    (hx : NLterm x) : ShapeOK (x :: M) := by
  cases M with
  | nil => exact Or.inl hx
  | cons y ys => exact ⟨hx, hM⟩

theorem shapeOK_splitKeepends (s : List Char) : ShapeOK (splitKeepends s) := by
  induction s with
  | nil => exact trivial
  | cons c cs ih =>
    by_cases hc : c = '\n'
    · subst hc
      simp only [splitKeepends, if_pos rfl]
      exact shapeOK_cons_of ih ⟨[], rfl, by simp⟩
    · simp only [splitKeepends, if_neg hc]
      cases h : splitKeepends cs with
      | nil =>
        simp only [consHead]
        show NLterm [c] ∨ NLopen [c]
        refine Or.inr ⟨by simp, ?_⟩
        intro hm; rw [List.mem_singleton] at hm; exact hc hm.symm
      | cons l ls =>
        rw [h] at ih
        simp only [consHead]
        rcases shapeOK_head ih with hT | ⟨hnil, hO⟩
        · rcases hT with ⟨bb, hb, hnb⟩
          refine shapeOK_cons_of (shapeOK_tail ih) ⟨c :: bb, by rw [hb]; rfl, ?_⟩
          intro hm
          rcases List.mem_cons.mp hm with h1 | h1
          · exact hc h1.symm
          · exact hnb h1
        · subst hnil
          show NLterm (c :: l) ∨ NLopen (c :: l)
          refine Or.inr ⟨by simp, ?_⟩
          intro hm
          rcases List.mem_cons.mp hm with h1 | h1
          · exact hc h1.symm
          · exact hO.2 h1

theorem shapeOK_sublist :
    ∀ {L M : List (List Char)}, L.Sublist M → ShapeOK M → ShapeOK L := by
  intro L M h
  induction h with
  | slnil => intro _; exact trivial
  | cons a h ih => intro hM; exact ih (shapeOK_tail hM)
  | cons₂ a h ih =>
    intro hM
    rcases shapeOK_head hM with hT | ⟨hnil, hO⟩
    · exact shapeOK_cons_of (ih (shapeOK_tail hM)) hT
    · subst hnil
      have hL := List.sublist_nil.mp h
      rw [hL]
      show NLterm a ∨ NLopen a
      exact Or.inr hO

theorem pyStrip_append_newline (x : List Char) : pyStrip (x ++ ['\n']) = pyStrip x :=
  pyStrip_append_ws (by decide)

theorem flatten_lines_strip :
    ∀ {L : List (List Char)}, ShapeOK L →
      ∀ l' ∈ splitlines L.flatten, ∃ l ∈ L, pyStrip l' = pyStrip l := by
  intro L
  induction L with
  | nil => intro _ l' hl'; simp [splitlines] at hl'
  | cons x xs ih =>
    intro hS l' hl'
    cases xs with
    | nil =>
      simp only [List.flatten_cons, List.flatten_nil, List.append_nil] at hl'
      rcases shapeOK_head hS with hT | ⟨_, hO⟩
      · rcases hT with ⟨bb, hb, hnb⟩
        subst hb
        rw [show bb ++ ['\n'] = bb ++ '\n' :: [] from rfl, splitlines_append] at hl'
        simp only [splitlines, List.append_nil] at hl'
        rw [splitFull_no_newline hnb, List.mem_singleton] at hl'
        subst hl'
        refine ⟨l' ++ ['\n'], List.mem_cons_self _ _, ?_⟩
        exact (pyStrip_append_newline l').symm
      · rw [splitlines_no_newline hO.2 hO.1, List.mem_singleton] at hl'
        exact ⟨x, List.mem_cons_self _ _, by rw [hl']⟩
    | cons y ys =>
      have hT : NLterm x := by
        rcases shapeOK_head hS with hT | ⟨hnil, _⟩
        · exact hT
        · exact absurd hnil (by simp)
      rcases hT with ⟨bb, hb, hnb⟩
      rw [List.flatten_cons, hb, List.append_assoc, List.singleton_append,
        splitlines_append, splitFull_no_newline hnb] at hl'
      rcases List.mem_append.mp hl' with h1 | h1
      · rw [List.mem_singleton] at h1
        subst h1
        refine ⟨x, List.mem_cons_self _ _, ?_⟩
        rw [hb]
        exact (pyStrip_append_newline l').symm
      · rcases ih (shapeOK_tail hS) l' h1 with ⟨l, hlm, hls⟩
        exact ⟨l, List.mem_cons_of_mem x hlm, hls⟩

-- Lines of the computed body.

theorem lines_removeFooterEmojis {b l : List Char}
    (hl : l ∈ splitlines (removeFooterEmojis b)) :
    ∃ l₂ u, l₂ ∈ splitlines b ∧ l₂ = l ++ u ∧ (∀ c ∈ u, pyWs c) ∧
      (FOOTER_EMOJIS.any fun e => containsSub e l₂) = false := by
  simp only [removeFooterEmojis] at hl
  rcases lines_pyRstrip hl with ⟨l', u, hm, he, hu⟩
  have hnl : ∀ x ∈ (splitlines b).filter
      (fun line => !(FOOTER_EMOJIS.any fun e => containsSub e line)), '\n' ∉ x :=
    fun x hx => mem_splitlines_no_newline (List.mem_of_mem_filter hx)
  have hmem := mem_splitlines_joinWith hnl l' hm
  have hfil := List.mem_filter.mp hmem
  refine ⟨l', u, hfil.1, he, hu, ?_⟩
  simpa using hfil.2

theorem bodyOf_lines_good (c : List Char) : ∀ l ∈ splitlines (bodyOf c), GoodStrip l := by
  intro l hl
  rcases lines_removeFooterEmojis (by simpa [bodyOf] using hl) with ⟨l₂, u, h₂, he, hu, _⟩
  simp only [bodyRawOf] at h₂
  rcases lines_pyRstrip h₂ with ⟨l₃, u₃, h₃, he₃, hu₃⟩
  rw [splitlines_flatten_drop] at h₃
  have h₃' : l₃ ∈ splitlines (cleanedContentOf c) := List.mem_of_mem_drop h₃
  have hshape : ShapeOK (cleanedLinesOf c) :=
    shapeOK_sublist (cleanHeaderGo_sublist false (linesOf c)) (shapeOK_splitKeepends c)
  rcases flatten_lines_strip hshape l₃ (by simpa [cleanedContentOf] using h₃') with ⟨l₄, h₄, hs₄⟩
  have hgood : GoodStrip l₄ := cleanHeaderGo_good false (linesOf c) l₄ h₄
  have e1 : pyStrip l₂ = pyStrip l := by rw [he]; exact pyStrip_append_ws hu
  have e2 : pyStrip l₃ = pyStrip l₂ := by rw [he₃]; exact pyStrip_append_ws hu₃
  unfold GoodStrip at hgood ⊢
  rw [← hs₄, e2, e1] at hgood
  exact hgood

-- Spec-worded variant of the footer stripper, for refinement comparison.

/-- Follows the spec's words for the footer stripper: delete every line
containing a catalog glyph, then trim trailing blank lines (and nothing
else), re-joining with newlines. -/
def stripFooterLinesSpecBlank (body : List Char) : List Char :=
  joinWith ['\n'] (dropTrailEmpty ((splitlines body).filter
    fun line => !(FOOTER_EMOJIS.any fun e => containsSub e line)))

/-- Like `stripFooterLinesSpecBlank` but trimming all trailing whitespace,
as the code's `str.rstrip()` does. -/
def stripFooterLinesSpecWs (body : List Char) : List Char :=
  pyRstrip (joinWith ['\n'] ((splitlines body).filter
    fun line => !(FOOTER_EMOJIS.any fun e => containsSub e line)))

-- Claim theorems.

/-- C9: the artifact stripper only deletes lines: its output is a sublist of
the input lines — every surviving line is an input line, unmodified and in
the original relative order. -/
theorem clean_header_lines_sublist (ls : List (List Char)) :
    (cleanHeaderLines ls).Sublist ls :=
  cleanHeaderGo_sublist false ls

/-- C5 counterexample: a shebang-style line that is not the first line is
nevertheless removed by the artifact stripper, contradicting the claim that
an interpreter-directive line is removed only when it is the very first
line. -/
theorem clean_header_late_shebang_removed :
    cleanHeaderLines ["x = 1\n".data, "#!/usr/bin/env python3\n".data] = ["x = 1\n".data] ∧
      "#!/usr/bin/env python3\n".data ∉
        cleanHeaderLines ["x = 1\n".data, "#!/usr/bin/env python3\n".data] := by
  constructor
  · decide
  · decide

/-- C5 amended: the artifact stripper removes every line whose stripped form
begins with an interpreter-directive marker, wherever it occurs; no such
line survives in the cleaned output. -/
theorem clean_header_strips_shebang_anywhere (ls : List (List Char)) (l : List Char)
    (hl : l ∈ cleanHeaderLines ls) : startsWith shebangMark (pyStrip l) = false :=
  (cleanHeaderGo_good false ls l hl).1

/-- Witness for the amended C5 theorem at a concrete input. -/
theorem clean_header_strips_shebang_anywhere_witness :
    "x = 1\n".data ∈ cleanHeaderLines ["x = 1\n".data] ∧
      startsWith shebangMark (pyStrip "x = 1\n".data) = false :=
  ⟨by decide, clean_header_strips_shebang_anywhere ["x = 1\n".data] _ (by decide)⟩

/-- C6 counterexample: on the body consisting of the single line with text
x followed by a space, deleting glyph lines and trimming trailing blank
lines keeps the trailing space, but the code's `rstrip` removes it, so the
stripper's output differs from the claimed text. -/
theorem remove_footer_emojis_trims_whitespace :
    removeFooterEmojis "x ".data ≠ stripFooterLinesSpecBlank "x ".data ∧
      removeFooterEmojis "x ".data = "x".data ∧
      stripFooterLinesSpecBlank "x ".data = "x ".data := by
  refine ⟨by decide, by decide, by decide⟩

/-- C6 amended: the footer stripper returns the text obtained by deleting
every line containing a catalog glyph and trimming all trailing whitespace
(not only trailing blank lines); in particular no line of the result
contains a catalog glyph. -/
theorem remove_footer_emojis_spec (b : List Char) :
    removeFooterEmojis b = stripFooterLinesSpecWs b ∧
      ∀ l ∈ splitlines (removeFooterEmojis b), ∀ e ∈ FOOTER_EMOJIS,
        containsSub e l = false := by
  constructor
  · rfl
  · intro l hl e he
    rcases lines_removeFooterEmojis hl with ⟨l₂, u, _, he₂, _, hany⟩
    have h2 : containsSub e l₂ = false := by
      cases hcc : containsSub e l₂ with
      | false => rfl
      | true =>
        exfalso
        have hT : (FOOTER_EMOJIS.any fun e => containsSub e l₂) = true :=
          List.any_eq_true.mpr ⟨e, he, hcc⟩
        rw [hany] at hT
        exact Bool.false_ne_true hT
    cases hcc : containsSub e l with
    | false => rfl
    | true =>
      exfalso
      have hT : containsSub e l₂ = true := by
        rw [he₂]; exact containsSub_append_left hcc u
      rw [h2] at hT
      exact Bool.false_ne_true hT

/-- Witness for the amended C6 theorem at a concrete input. -/
theorem remove_footer_emojis_spec_witness :
    "a".data ∈ splitlines (removeFooterEmojis "a\n# 🔚".data) ∧
      "🔚".data ∈ FOOTER_EMOJIS ∧
      containsSub "🔚".data "a".data = false :=
  ⟨by decide, by decide,
    (remove_footer_emojis_spec "a\n# 🔚".data).2 "a".data (by decide) "🔚".data (by decide)⟩

/-- C7: the prologue parser is a total function and, whenever parsing the
text fails, it returns no docstring and body start line 1. -/
theorem find_docstring_parse_failure (content : List Char)
    (h : pyParse content = none) :
    findModuleDocstringAndBodyStart content = (none, 1) := by
  simp [findModuleDocstringAndBodyStart, h]

/-- Witness for the C7 theorem at a concrete unterminated-string input. -/
theorem find_docstring_parse_failure_witness :
    pyParse "\"\"\"abc".data = none ∧
      findModuleDocstringAndBodyStart "\"\"\"abc".data = (none, 1) :=
  ⟨by decide, find_docstring_parse_failure _ (by decide)⟩

/-- C10: the reconstructed content ends with the footer followed by exactly
one newline in both template forms, and so does the content written for an
empty input file. -/
theorem construct_ends_with_footer (h d b f : List Char) :
    (∃ p, constructFileContent h d b f = p ++ (f ++ ['\n'])) ∧
      (∃ q, emptyFileContent f = q ++ (f ++ ['\n'])) := by
  constructor
  · by_cases hb : b.isEmpty = true
    · refine ⟨joinWith ['\n'] (h :: SPDX_BLOCK) ++ nl2 ++ d ++ nl2, ?_⟩
      simp [constructFileContent, hb, List.append_assoc]
    · refine ⟨joinWith ['\n'] (h :: SPDX_BLOCK) ++ nl2 ++ d ++ nl2 ++ b ++ nl2, ?_⟩
      simp [constructFileContent, hb, List.append_assoc]
  · exact ⟨joinWith ['\n'] (HEADER_LIBRARY :: SPDX_BLOCK) ++ nl2 ++ PLACEHOLDER_DOCSTRING ++ nl2,
      by simp [emptyFileContent, List.append_assoc]⟩

theorem splitKeepends_eq_nil_iff {c : List Char} : splitKeepends c = [] ↔ c = [] := by
  constructor
  · intro h
    have hf := flatten_splitKeepends c
    rw [h] at hf
    simpa using hf.symm
  · intro h; subst h; rfl

/-- A module docstring ending in a double quote: rendering it back as a
triple-double-quoted literal yields text that no longer parses. -/
def quoteDocstringInput : List Char := "'''Say \"hi\"'''\nx = 1\n".data

/-- C1: evaluation at the failing input.  The output of the first
conformance run is not a fixpoint: a second run produces byte-different
content and reports the file as modified, contradicting the guaranteed
idempotence. -/
theorem conform_file_second_run_modifies :
    conformContent (conformContent quoteDocstringInput DEFAULT_FOOTER) DEFAULT_FOOTER
        ≠ conformContent quoteDocstringInput DEFAULT_FOOTER ∧
      (conformFile (Except.ok (conformContent quoteDocstringInput DEFAULT_FOOTER)) true
          DEFAULT_FOOTER).result = Except.ok true := by
  refine ⟨by decide, ?_⟩
  rfl

/-- A module docstring with leading blanks, and a body that repeats the
normalized docstring text. -/
def spacedDocstringInput : List Char := "'''  hi'''\ns = \"hi\"\n".data

/-- C2 counterexample: the input's raw docstring text (two blanks then hi)
appears zero times in the output — the docstring is normalized before
re-rendering — and even the normalized text appears twice, not once. -/
theorem exact_docstring_not_preserved :
    pyParse (cleanedContentOf spacedDocstringInput) =
        some (some (1, some "  hi".data, some 2)) ∧
      countOccur "  hi".data (conformContent spacedDocstringInput DEFAULT_FOOTER) = 0 ∧
      countOccur "hi".data (conformContent spacedDocstringInput DEFAULT_FOOTER) = 2 := by
  refine ⟨by decide, by decide, by decide⟩

/-- C2 amended: when the cleaned input yields a module docstring, the
normalized (cleandoc-processed) docstring text appears at least once in the
output of the conformance pipeline. -/
theorem conform_contains_cleaned_docstring (c f d : List Char)
    (hd : (docstringInfoOf c).1 = some d) :
    containsSub d (conformContent c f) = true := by
  have hds : docstringStrOf c = dq3 ++ d ++ dq3 := by
    simp [docstringStrOf, hd]
  unfold conformContent
  rw [hds]
  unfold constructFileContent
  by_cases hb : (bodyOf c).isEmpty = true
  · rw [if_pos hb]
    simp only [List.append_assoc]
    apply containsSub_append_right
    apply containsSub_append_right
    apply containsSub_append_right
    exact containsSub_self_append d _
  · rw [if_neg hb]
    simp only [List.append_assoc]
    apply containsSub_append_right
    apply containsSub_append_right
    apply containsSub_append_right
    exact containsSub_self_append d _

/-- Witness for the amended C2 theorem at a concrete input. -/
theorem conform_contains_cleaned_docstring_witness :
    (docstringInfoOf spacedDocstringInput).1 = some "hi".data ∧
      containsSub "hi".data (conformContent spacedDocstringInput DEFAULT_FOOTER) = true :=
  ⟨by decide, conform_contains_cleaned_docstring _ _ _ (by decide)⟩

/-- C4 counterexample: for an empty input file with a failing write, the
write is performed outside the protected region, so the exception escapes
`conform_file` instead of being reported as a false return. -/
theorem conform_file_empty_write_failure_escapes :
    conformFile (Except.ok "".data) false DEFAULT_FOOTER =
        ⟨Except.error (), none, false⟩ ∧
      (Except.error () : Except Unit Bool) ≠ Except.ok false :=
  ⟨rfl, fun h => Except.noConfusion h⟩

/-- C4 amended: a read failure is reported and yields modified-false with no
write, and a write failure in the comparison-write path yields
modified-false with no write; only the empty-file write can escape. -/
theorem conform_file_failure_isolation (e : Unit) (w : Bool) (c f g : List Char)
    (hc : c ≠ []) :
    conformFile (Except.error e) w f = ⟨Except.ok false, none, true⟩ ∧
      (conformFile (Except.ok c) false g).result = Except.ok false ∧
      (conformFile (Except.ok c) false g).written = none := by
  have hne : ¬ ((splitKeepends c).isEmpty = true) := by
    simp only [List.isEmpty_iff, splitKeepends_eq_nil_iff]
    exact hc
  refine ⟨rfl, ?_, ?_⟩ <;>
    · by_cases hch : conformContent c g = c
      · simp [conformFile, hne, hch]
      · simp [conformFile, hne, hch]

/-- Witness for the amended C4 theorem at concrete inputs. -/
theorem conform_file_failure_isolation_witness :
    conformFile (Except.error ()) true DEFAULT_FOOTER = ⟨Except.ok false, none, true⟩ ∧
      (conformFile (Except.ok "x".data) false DEFAULT_FOOTER).result = Except.ok false ∧
      (conformFile (Except.ok "x".data) false DEFAULT_FOOTER).written = none :=
  conform_file_failure_isolation () true "x".data DEFAULT_FOOTER DEFAULT_FOOTER (by decide)

/-- An input whose interpreter directive differs from the canonical one. -/
def otherShebangInput : List Char := "#!/usr/bin/python\nx = 1\n".data

/-- C3 counterexample: for an input starting with a non-canonical
interpreter directive, the output's first line is the canonical directive,
not the input's directive. -/
theorem shebang_not_preserved_verbatim :
    isExecutable otherShebangInput = true ∧
      (splitlines (conformContent otherShebangInput DEFAULT_FOOTER)).headD [] =
        HEADER_SHEBANG ∧
      (splitlines (conformContent otherShebangInput DEFAULT_FOOTER)).headD [] ≠
        "#!/usr/bin/python".data := by
  refine ⟨by decide, by decide, by decide⟩

/-- C3 amended: for executable input, the output starts with the canonical
directive followed immediately by the copyright block, and the canonical
directive occurs exactly once among the output's lines, provided neither the
rendered docstring nor the footer contains it as a line. -/
theorem conform_shebang_canonical (c f : List Char)
    (hx : isExecutable c = true)
    (hd : HEADER_SHEBANG ∉ splitFull (docstringStrOf c))
    (hf : HEADER_SHEBANG ∉ splitFull f) :
    List.take 4 (splitlines (conformContent c f)) = HEADER_SHEBANG :: SPDX_BLOCK ∧
      List.count HEADER_SHEBANG (splitlines (conformContent c f)) = 1 := by
  have hh : headerFirstOf c = HEADER_SHEBANG := by simp [headerFirstOf, hx]
  have hhn : '\n' ∉ HEADER_SHEBANG := by decide
  have hc : conformContent c f =
      constructFileContent HEADER_SHEBANG (docstringStrOf c) (bodyOf c) f := by
    rw [conformContent, hh]
  have h1 : List.count HEADER_SHEBANG [HEADER_SHEBANG] = 1 := by decide
  have h2 : List.count HEADER_SHEBANG SPDX_BLOCK = 0 := by decide
  have h3 : List.count HEADER_SHEBANG [([] : List Char)] = 0 := by decide
  have h4 : List.count HEADER_SHEBANG (splitFull (docstringStrOf c)) = 0 :=
    List.count_eq_zero.mpr hd
  have h5 : List.count HEADER_SHEBANG (splitFull f) = 0 := List.count_eq_zero.mpr hf
  have h6 : List.count HEADER_SHEBANG (splitFull (bodyOf c)) = 0 := by
    rw [List.count_eq_zero]
    intro hmem
    rcases mem_splitFull_cases hmem with hsl | hnil
    · have hg := bodyOf_lines_good c _ hsl
      have ht : startsWith shebangMark (pyStrip HEADER_SHEBANG) = true := by decide
      rw [hg.1] at ht
      exact Bool.false_ne_true ht
    · exact absurd hnil (by decide)
  by_cases hb : bodyOf c = []
  · rw [hc, hb, lines_construct_empty (docstringStrOf c) f hhn]
    refine ⟨by simp [SPDX_BLOCK], ?_⟩
    simp only [List.count_append, h1, h2, h3, h4, h5]
  · rw [hc, lines_construct (docstringStrOf c) (bodyOf c) f hb hhn]
    refine ⟨by simp [SPDX_BLOCK], ?_⟩
    simp only [List.count_append, h1, h2, h3, h4, h5, h6]

/-- A conforming executable input used as the witness instance. -/
def plainShebangInput : List Char := "#!/usr/bin/env python3\nx = 1\n".data

/-- Witness for the amended C3 theorem at a concrete input. -/
theorem conform_shebang_canonical_witness :
    isExecutable plainShebangInput = true ∧
      HEADER_SHEBANG ∉ splitFull (docstringStrOf plainShebangInput) ∧
      HEADER_SHEBANG ∉ splitFull DEFAULT_FOOTER ∧
      List.take 4 (splitlines (conformContent plainShebangInput DEFAULT_FOOTER)) =
        HEADER_SHEBANG :: SPDX_BLOCK ∧
      List.count HEADER_SHEBANG
        (splitlines (conformContent plainShebangInput DEFAULT_FOOTER)) = 1 := by
  have h := conform_shebang_canonical plainShebangInput DEFAULT_FOOTER (by decide)
    (by decide) (by decide)
  exact ⟨by decide, by decide, by decide, h.1, h.2⟩

instance goodStripDecidable (l : List Char) : Decidable (GoodStrip l) := by
  unfold GoodStrip
  infer_instance

theorem headD_eq_getD (l : List Char) (d : Char) : l.head?.getD d = l.headD d := by
  cases l <;> rfl

end Conform
